import Mathlib

/-!
Verification of the filify.py bidirectional project converter.

The Python source is shallowly embedded over `Str := List Char` (one Python
`str` = one list of characters).  The four components are modelled:

* `_parse_spec_file`  (Splitter)  — `re.split` on the MULTILINE pattern
  `^# ={10,} (.+?) ={10,}$` followed by the strip / triple-quote-clean /
  dict-assignment loop;
* `_generate_spec_content` (Composer) — sort items, emit separator line,
  content, blank line, join with newlines;
* `_scan_directory` (Scanner) — walk a modelled directory listing, apply
  `should_skip` (substring patterns over the full path string plus the
  leading-dot rule on the final component), read text files, skip binary
  files, propagate permission errors;
* `_create_directory_structure` (Materializer) — one write operation per
  entry, `chmod 0o755` exactly for paths ending in `.sh`.

`re.split` with one capture group returns the alternating list
`piece₀, capture₁, piece₁, …`; because the pattern is anchored with `^…$`
under MULTILINE and `.` does not match a newline, every match is exactly one
whole line of the document.  `sectionsGo` reproduces this on the line list:
pieces keep the newline characters adjacent to the matched lines.
-/

namespace Filify

abbrev Str := List Char

/-- ASCII whitespace stripped by Python `str.strip()`. -/
def isPySpace (c : Char) : Bool :=
  c = ' ' || c = '\t' || c = '\n' || c = '\r' || c = '\x0b' || c = '\x0c'

/-- Python `str.lstrip()`. -/
def lstripF (s : Str) : Str := s.dropWhile isPySpace

/-- Python `str.rstrip()`. -/
def rstripF (s : Str) : Str := (s.reverse.dropWhile isPySpace).reverse

/-- Python `str.strip()`. -/
def pythonStrip (s : Str) : Str := rstripF (lstripF s)

/-- Python `a.startswith(p)`: `p` is a prefix of the second argument. -/
def isPref : Str → Str → Bool
  | [], _ => true
  | _ :: _, [] => false
  | a :: as, b :: bs => a = b && isPref as bs

/-- Python `s.endswith(p)`. -/
def endsW (p s : Str) : Bool := isPref p.reverse s.reverse

/-- Python `p in s` for strings: substring test. -/
def isSub (p : Str) : Str → Bool
  | [] => isPref p []
  | c :: t => isPref p (c :: t) || isSub p t

/-- Length of the leading run of `=` characters. -/
def eqRun : Str → Nat
  | [] => 0
  | c :: s => if c = '=' then eqRun s + 1 else 0

def dq : Char := Char.ofNat 34
def qt : Char := Char.ofNat 39

/-- The `"""` delimiter. -/
def tq : Str := [dq, dq, dq]

/-- The `'''` delimiter. -/
def sq : Str := [qt, qt, qt]

/-- Match of one document line against `^# ={10,} (.+?) ={10,}$`, returning
the captured group.  The first `={10,}` is greedy but is followed by a
literal space, so it must be the maximal `=`-run; the trailing `={10,}` is
greedy and anchored at `$`, so it is the maximal trailing `=`-run and the
character before it must be the literal space; the lazy group is whatever
stands between and must be nonempty and (since `.` never matches a newline)
free of `\n`. -/
def matchSep (line : Str) : Option Str :=
  match line with
  | c1 :: c2 :: rest =>
    if c1 = '#' ∧ c2 = ' ' then
      let n := eqRun rest
      if n < 10 then none
      else
        match rest.drop n with
        | c3 :: r =>
          if c3 = ' ' then
            let m := eqRun r.reverse
            if m < 10 then none
            else
              match r.reverse.drop m with
              | c4 :: grev =>
                if c4 = ' ' then
                  if grev = [] then none
                  else if grev.all (fun c => !(c = '\n' : Bool)) then some grev.reverse
                  else none
                else none
              | [] => none
          else none
        | [] => none
    else none
  | _ => none

/-- Split a string into its lines (the cuts `re.MULTILINE` anchors see). -/
def splitLines : Str → List Str
  | [] => [[]]
  | c :: rest =>
    if c = '\n' then [] :: splitLines rest
    else
      match splitLines rest with
      | [] => [[c]]
      | l :: ls => (c :: l) :: ls

/-- Python `"\n".join`. -/
def joinNl : List Str → Str
  | [] => []
  | [s] => s
  | s :: t :: rest => s ++ '\n' :: joinNl (t :: rest)

/-- The alternating section list produced by
`re.split(r'^# ={10,} (.+?) ={10,}$', content)` (MULTILINE), computed over
the line list.  `acc` holds, reversed, the lines of the piece currently
being accumulated; a separator line flushes the piece (with the newline
that precedes the separator, realised as a trailing empty line) and emits
the captured path. -/
def sectionsGo : List Str → List Str → List Str
  | acc, [] => [joinNl acc.reverse]
  | acc, l :: rest =>
    match matchSep l with
    | some p => joinNl (([] :: acc).reverse) :: p :: sectionsGo [[]] rest
    | none => sectionsGo (l :: acc) rest

/-- Python dict assignment `d[k] = v`: update in place if the key is
present (association lists built by the parser have unique keys), append
otherwise. -/
def dictInsert : List (Str × Str) → Str → Str → List (Str × Str)
  | [], k, v => [(k, v)]
  | e :: t, k, v => if e.1 = k then (k, v) :: t else e :: dictInsert t k v

/-- Python dict lookup `d.get(k)`. -/
def dictLookup : List (Str × Str) → Str → Option Str
  | [], _ => none
  | e :: t, k => if e.1 = k then some e.2 else dictLookup t k

/-- Lines 64–70 of filify.py: strip the raw section text, then strip one
pair of triple-quote delimiters if the trimmed text both starts and ends
with the same delimiter, then strip again (`file_content[3:-3].strip()`). -/
def cleanContent (raw : Str) : Str :=
  let s := pythonStrip raw
  if isPref tq s && endsW tq s then pythonStrip ((s.drop 3).take (s.length - 6))
  else if isPref sq s && endsW sq s then pythonStrip ((s.drop 3).take (s.length - 6))
  else s

/-- The loop `for i in range(1, len(sections), 2)` of `_parse_spec_file`:
consume (path, content) section pairs, guarded by `i + 1 < len(sections)`
for an unpaired trailing element. -/
def parseGo : List (Str × Str) → List Str → List (Str × Str)
  | files, p :: c :: rest => parseGo (dictInsert files (pythonStrip p) (cleanContent c)) rest
  | files, _ => files

/-- `_parse_spec_file` (filify.py lines 54–75). -/
def _parse_spec_file (content : Str) : List (Str × Str) :=
  parseGo [] ((sectionsGo [] (splitLines content)).drop 1)

/-- Python string `<`: lexicographic comparison by code point. -/
def strLtB : Str → Str → Bool
  | [], [] => false
  | [], _ :: _ => true
  | _ :: _, [] => false
  | a :: as, b :: bs => if a < b then true else if a = b then strLtB as bs else false

/-- Python tuple comparison `(p₁, c₁) <= (p₂, c₂)` used by
`sorted(files.items())`. -/
def pairLe (a b : Str × Str) : Prop :=
  strLtB a.1 b.1 = true ∨ (a.1 = b.1 ∧ (strLtB a.2 b.2 = true ∨ a.2 = b.2))

instance : DecidableRel pairLe := fun a b =>
  inferInstanceAs (Decidable (strLtB a.1 b.1 = true ∨ (a.1 = b.1 ∧ (strLtB a.2 b.2 = true ∨ a.2 = b.2))))

/-- Twenty `=` characters. -/
def eqs20 : Str := List.replicate 20 '='

/-- `f"# {'=' * 20} {filepath} {'=' * 20}"`. -/
def sepLine (fp : Str) : Str := '#' :: ' ' :: (eqs20 ++ ' ' :: (fp ++ ' ' :: eqs20))

/-- The `content_parts` list built by `_generate_spec_content`: separator,
raw content, one empty string per file. -/
def contentParts : List (Str × Str) → List Str
  | [] => []
  | e :: t => sepLine e.1 :: e.2 :: [] :: contentParts t

/-- `_generate_spec_content` (filify.py lines 112–125): sort the items,
emit the parts, join with newlines. -/
def _generate_spec_content (files : List (Str × Str)) : Str :=
  joinNl (contentParts (List.insertionSort pairLe files))

/-- Outcome of `file_path.read_text(encoding='utf-8')` for one file of the
modelled directory tree. -/
inductive ReadResult where
  | text (c : Str)
  | binaryData
  | permissionDenied
deriving DecidableEq

/-- The skip set of `_scan_directory` (a Python `set`; membership order is
irrelevant because only `any` is applied to it). -/
def skip_patterns : List Str :=
  ["__pycache__".toList, ".git".toList, ".env".toList, "venv".toList,
   "node_modules".toList, ".pytest_cache".toList, "*.pyc".toList,
   "*.log".toList, ".DS_Store".toList]

/-- `Path.name`: the part of a path after the last `/`. -/
def lastName (p : Str) : Str := (p.reverse.takeWhile (fun c => !(c = '/' : Bool))).reverse

/-- `should_skip` (filify.py lines 88–92).  Note the precedence of the
Python expression: for each pattern the disjunct is
`pattern in str(path) or (path.name.startswith('.') and path.name != '.env.example')`,
so the whole test is a substring check of each pattern against the full
path string, or the leading-dot test on the final path component. -/
def should_skip (full : Str) : Bool :=
  skip_patterns.any (fun pat =>
    isSub pat full ||
      (isPref ['.'] (lastName full) && !(lastName full = ".env.example".toList : Bool)))

/-- The body of the `rglob` loop of `_scan_directory`, over the modelled
list of regular files (directory entries are filtered out by `is_file()`
before `should_skip` is consulted; `relative_to` cannot fail for paths
produced by `rglob`).  The full path string seen by `should_skip` is
`root + "/" + relative`.  Only `UnicodeDecodeError` is caught per file
(binary skip); a permission error propagates out of the whole scan. -/
def scanGo (root : Str) : List (Str × Str) → List (Str × ReadResult) → Except Unit (List (Str × Str))
  | files, [] => .ok files
  | files, (rel, res) :: rest =>
    if should_skip (root ++ '/' :: rel) then scanGo root files rest
    else
      match res with
      | .text c => scanGo root (dictInsert files rel c) rest
      | .binaryData => scanGo root files rest
      | .permissionDenied => .error ()

/-- `_scan_directory` (filify.py lines 77–110) over a modelled tree:
`root` is the scanned directory path, `entries` the relative path and read
outcome of every regular file below it. -/
def _scan_directory (root : Str) (entries : List (Str × ReadResult)) : Except Unit (List (Str × Str)) :=
  scanGo root [] entries

/-- One filesystem write performed by the Materializer: the file path, the
text written, and the permission bits set afterwards (`none` when the code
leaves the default permissions untouched). -/
structure WriteOp where
  path : Str
  fileContent : Str
  mode : Option Nat
deriving DecidableEq

/-- `_create_directory_structure` (filify.py lines 127–143): one write per
entry in dict order; `os.chmod(file_path, 0o755)` exactly when the path
ends with `.sh`. -/
def _create_directory_structure (files : List (Str × Str)) : List WriteOp :=
  files.map (fun e =>
    { path := e.1, fileContent := e.2,
      mode := if endsW (".sh".toList) e.1 then some 0o755 else none })

/-- A path key acceptable to the round-trip: nonempty, newline-free,
strip-invariant. -/
def goodPath (fp : Str) : Prop := fp ≠ [] ∧ '\n' ∉ fp ∧ pythonStrip fp = fp

/-- The Boolean triple-quote tests of `_parse_spec_file` both fail. -/
def notQuoted (c : Str) : Prop :=
  (isPref tq c && endsW tq c) = false ∧ (isPref sq c && endsW sq c) = false

/-- A content value acceptable to the round-trip: strip-invariant, not
wrapped in triple quotes, no line matching the separator pattern. -/
def goodContent (c : Str) : Prop :=
  pythonStrip c = c ∧ notQuoted c ∧ ∀ l ∈ splitLines c, matchSep l = none

instance : DecidablePred goodPath := fun fp =>
  inferInstanceAs (Decidable (fp ≠ [] ∧ '\n' ∉ fp ∧ pythonStrip fp = fp))

instance : DecidablePred notQuoted := fun c =>
  inferInstanceAs (Decidable ((isPref tq c && endsW tq c) = false ∧ (isPref sq c && endsW sq c) = false))

instance : DecidablePred goodContent := fun c =>
  inferInstanceAs (Decidable (pythonStrip c = c ∧ notQuoted c ∧ ∀ l ∈ splitLines c, matchSep l = none))

/-- The lines the Composer emits for one entry, as seen by the Splitter. -/
def entryLines (e : Str × Str) : List Str := sepLine e.1 :: (splitLines e.2 ++ [[]])

def linesOf : List (Str × Str) → List Str
  | [] => []
  | e :: t => entryLines e ++ linesOf t

/-- Accumulator state of `sectionsGo` after consuming the lines of one
entry's content block plus its blank line. -/
def accOf (c : Str) : List Str := [] :: ((splitLines c).reverse ++ [[]])

/-- Closed form of the section list on Composer output. -/
def sectionsOfEntries : List Str → List (Str × Str) → List Str
  | acc, [] => [joinNl acc.reverse]
  | acc, (fp, c) :: t => joinNl (([] :: acc).reverse) :: fp :: sectionsOfEntries (accOf c) t

/-- The (stripped path, cleaned content) pairs of a document's section
list, in document order. -/
def pairsOf : List Str → List (Str × Str)
  | p :: c :: rest => (pythonStrip p, cleanContent c) :: pairsOf rest
  | _ => []

/-- All (path, content) pairs a document presents, in document order. -/
def parsedPairs (doc : Str) : List (Str × Str) :=
  pairsOf ((sectionsGo [] (splitLines doc)).drop 1)

/-- The binding the *latest* occurrence of a key in a pair list gives it. -/
def lastWins : List (Str × Str) → Str → Option Str
  | [], _ => none
  | e :: t, k =>
    match lastWins t k with
    | some v => some v
    | none => if e.1 = k then some e.2 else none

/-! ### Whitespace stripping -/

theorem pythonStrip_nil : pythonStrip [] = [] := rfl

theorem pythonStrip_cons_space {a : Char} (h : isPySpace a = true) (s : Str) :
    pythonStrip (a :: s) = pythonStrip s := by
  unfold pythonStrip lstripF
  rw [List.dropWhile_cons_of_pos h]

theorem lstripF_append_single {a : Char} (h : isPySpace a = true) (s : Str) :
    lstripF (s ++ [a]) = if (lstripF s).isEmpty then [] else lstripF s ++ [a] := by
  unfold lstripF
  rw [List.dropWhile_append]
  simp [List.dropWhile, h]

theorem pythonStrip_append_space {a : Char} (h : isPySpace a = true) (s : Str) :
    pythonStrip (s ++ [a]) = pythonStrip s := by
  unfold pythonStrip
  rw [lstripF_append_single h]
  by_cases he : (lstripF s).isEmpty
  · rw [if_pos he]
    rw [List.isEmpty_iff] at he
    rw [he]
  · rw [if_neg he]
    unfold rstripF
    rw [List.reverse_append, List.reverse_singleton, List.singleton_append,
      List.dropWhile_cons_of_pos h]

theorem rstripF_append_nonspace {b : Char} (h : isPySpace b = false) (s : Str) :
    rstripF (s ++ [b]) = s ++ [b] := by
  unfold rstripF
  rw [List.reverse_append, List.reverse_singleton, List.singleton_append,
    List.dropWhile_cons_of_neg (by simp [h]), List.reverse_cons, List.reverse_reverse]

theorem pythonStrip_cons_nonspace {a : Char} (h : isPySpace a = false) (s : Str) :
    pythonStrip (a :: s) = a :: rstripF s := by
  unfold pythonStrip lstripF
  rw [List.dropWhile_cons_of_neg (by simp [h])]
  unfold rstripF
  rw [List.reverse_cons, List.dropWhile_append]
  by_cases he : (List.dropWhile isPySpace s.reverse).isEmpty
  · rw [if_pos he]
    rw [List.isEmpty_iff] at he
    rw [he]
    simp [List.dropWhile, h]
  · rw [if_neg he]
    rw [List.reverse_append, List.reverse_singleton, List.singleton_append]

theorem rstripF_idem (s : Str) : rstripF (rstripF s) = rstripF s := by
  unfold rstripF
  rw [List.reverse_reverse, List.dropWhile_idempotent]

theorem pythonStrip_idem (s : Str) : pythonStrip (pythonStrip s) = pythonStrip s := by
  induction s with
  | nil => rfl
  | cons a s ih =>
    by_cases h : isPySpace a = true
    · rw [pythonStrip_cons_space h, ih]
    · rw [Bool.not_eq_true] at h
      rw [pythonStrip_cons_nonspace h, pythonStrip_cons_nonspace h, rstripF_idem]

theorem pythonStrip_of_ends {a b : Char} (ha : isPySpace a = false) (hb : isPySpace b = false)
    (mid : Str) : pythonStrip (a :: (mid ++ [b])) = a :: (mid ++ [b]) := by
  rw [pythonStrip_cons_nonspace ha, rstripF_append_nonspace hb]

theorem pythonStrip_wrap {c : Str} (h : pythonStrip c = c) :
    pythonStrip ('\n' :: (c ++ ['\n'])) = c := by
  rw [pythonStrip_cons_space (by decide), pythonStrip_append_space (by decide), h]

theorem pythonStrip_wrap2 {c : Str} (h : pythonStrip c = c) :
    pythonStrip ('\n' :: (c ++ ['\n', '\n'])) = c := by
  have : c ++ ['\n', '\n'] = (c ++ ['\n']) ++ ['\n'] := by simp
  rw [this, pythonStrip_cons_space (by decide), pythonStrip_append_space (by decide),
    pythonStrip_append_space (by decide), h]

/-! ### Lines -/

theorem splitLines_ne_nil (s : Str) : splitLines s ≠ [] := by
  match s with
  | [] => simp [splitLines]
  | c :: rest =>
    unfold splitLines
    by_cases h : c = '\n'
    · simp [h]
    · rw [if_neg h]
      match hr : splitLines rest with
      | [] => simp
      | l :: ls => simp

theorem splitLines_cons_nl (s : Str) : splitLines ('\n' :: s) = [] :: splitLines s := by
  conv_lhs => unfold splitLines
  rw [if_pos rfl]

theorem splitLines_cons {c : Char} (h : ¬ c = '\n') {s : Str} {l : Str} {ls : List Str}
    (hs : splitLines s = l :: ls) : splitLines (c :: s) = (c :: l) :: ls := by
  conv_lhs => unfold splitLines
  rw [if_neg h, hs]

theorem splitLines_append (x y : Str) : splitLines (x ++ '\n' :: y) = splitLines x ++ splitLines y := by
  induction x with
  | nil => rw [List.nil_append, splitLines_cons_nl]; rfl
  | cons c x ih =>
    by_cases h : c = '\n'
    · subst h
      rw [List.cons_append, splitLines_cons_nl, splitLines_cons_nl, ih, List.cons_append]
    · obtain ⟨l, ls, hx⟩ : ∃ l ls, splitLines x = l :: ls := by
        match hx : splitLines x with
        | [] => exact absurd hx (splitLines_ne_nil x)
        | l :: ls => exact ⟨l, ls, rfl⟩
      have hxy : splitLines (x ++ '\n' :: y) = (l ++ []) :: (ls ++ splitLines y) := by
        rw [ih, hx]
        simp
      rw [List.cons_append, splitLines_cons h hxy, splitLines_cons h hx]
      simp

theorem splitLines_nlFree {s : Str} (h : '\n' ∉ s) : splitLines s = [s] := by
  induction s with
  | nil => rfl
  | cons c s ih =>
    have hc : ¬ c = '\n' := by
      intro hc; exact h (hc ▸ List.mem_cons_self c s)
    have hs : splitLines s = [s] := ih (fun hm => h (List.mem_cons_of_mem c hm))
    exact splitLines_cons hc hs

theorem joinNl_cons {s : Str} {t : List Str} (h : t ≠ []) :
    joinNl (s :: t) = s ++ '\n' :: joinNl t := by
  match t with
  | [] => exact absurd rfl h
  | a :: t => rfl

theorem joinNl_splitLines (s : Str) : joinNl (splitLines s) = s := by
  induction s with
  | nil => rfl
  | cons c s ih =>
    by_cases h : c = '\n'
    · subst h
      rw [splitLines_cons_nl, joinNl_cons (splitLines_ne_nil s), ih, List.nil_append]
    · obtain ⟨l, ls, hs⟩ : ∃ l ls, splitLines s = l :: ls := by
        match hs : splitLines s with
        | [] => exact absurd hs (splitLines_ne_nil s)
        | l :: ls => exact ⟨l, ls, rfl⟩
      rw [splitLines_cons h hs]
      rw [hs] at ih
      match ls, ih with
      | [], ih =>
        have hl : l = s := by simpa [joinNl] using ih
        simp [joinNl, hl]
      | b :: ls, ih =>
        rw [joinNl_cons (by simp), List.cons_append]
        rw [joinNl_cons (by simp)] at ih
        rw [ih]

theorem splitLines_append_left {x : Str} (h : '\n' ∉ x) (y : Str) :
    ∃ l ls, splitLines y = l :: ls ∧ splitLines (x ++ y) = (x ++ l) :: ls := by
  obtain ⟨l, ls, hy⟩ : ∃ l ls, splitLines y = l :: ls := by
    match hy : splitLines y with
    | [] => exact absurd hy (splitLines_ne_nil y)
    | l :: ls => exact ⟨l, ls, rfl⟩
  refine ⟨l, ls, hy, ?_⟩
  induction x with
  | nil => simpa using hy
  | cons c x ih =>
    have hc : ¬ c = '\n' := fun hc => h (hc ▸ List.mem_cons_self c x)
    have hx : splitLines (x ++ y) = (x ++ l) :: ls := ih (fun hm => h (List.mem_cons_of_mem c hm))
    rw [List.cons_append, splitLines_cons hc hx, List.cons_append]

theorem splitLines_append_right {w : Str} (h : '\n' ∉ w) (z : Str) :
    ∃ init la, splitLines z = init ++ [la] ∧ splitLines (z ++ w) = init ++ [la ++ w] := by
  induction z with
  | nil => exact ⟨[], [], rfl, by simpa using splitLines_nlFree h⟩
  | cons c z ih =>
    obtain ⟨init, la, hz, hzw⟩ := ih
    by_cases hc : c = '\n'
    · subst hc
      exact ⟨[] :: init, la, by rw [splitLines_cons_nl, hz]; rfl,
        by rw [List.cons_append, splitLines_cons_nl, hzw]; rfl⟩
    · match init, hz, hzw with
      | [], hz, hzw =>
        refine ⟨[], c :: la, ?_, ?_⟩
        · rw [splitLines_cons hc (by simpa using hz)]; rfl
        · rw [List.cons_append, splitLines_cons hc (by simpa using hzw)]; rfl
      | i :: init, hz, hzw =>
        refine ⟨(c :: i) :: init, la, ?_, ?_⟩
        · rw [splitLines_cons hc (by simpa using hz)]; rfl
        · rw [List.cons_append, splitLines_cons hc (by simpa using hzw)]; rfl

/-! ### The separator pattern -/

theorem eqRun_take (s : Str) : s.take (eqRun s) = List.replicate (eqRun s) '=' := by
  induction s with
  | nil => rfl
  | cons c s ih =>
    by_cases h : c = '='
    · subst h
      show List.take (eqRun s + 1) ('=' :: s) = _
      rw [show eqRun ('=' :: s) = eqRun s + 1 from by simp [eqRun]]
      rw [List.take_succ_cons, ih, List.replicate_succ]
    · rw [show eqRun (c :: s) = 0 from by simp [eqRun, h]]
      rfl

theorem eqRun_replicate_stop {c : Char} (h : ¬ c = '=') (n : Nat) (s : Str) :
    eqRun (List.replicate n '=' ++ c :: s) = n := by
  induction n with
  | zero => simp [eqRun, h]
  | succ n ih => rw [List.replicate_succ, List.cons_append]; simp [eqRun, ih]

theorem eqRun_zero_of_head {c : Char} (h : ¬ c = '=') (s : Str) : eqRun (c :: s) = 0 := by
  simp [eqRun, h]

theorem matchSep_nil : matchSep [] = none := rfl

theorem matchSep_single (c : Char) : matchSep [c] = none := rfl

theorem matchSep_cons_ne {a : Char} (h : ¬ a = '#') (b : Char) (rest : Str) :
    matchSep (a :: b :: rest) = none := by
  simp only [matchSep]
  rw [if_neg (by intro hab; exact h hab.1)]

theorem matchSep_none_last {x : Str} {c : Char} (hc : ¬ c = '=') : matchSep (x ++ [c]) = none := by
  match x with
  | [] => exact matchSep_single c
  | [a] =>
    simp only [List.cons_append, List.nil_append, matchSep]
    by_cases hab : a = '#' ∧ c = ' '
    · rw [if_pos hab, if_pos (by simp [eqRun])]
    · rw [if_neg hab]
  | a :: b :: t =>
    simp only [List.cons_append, matchSep]
    by_cases hab : a = '#' ∧ b = ' '
    case neg => rw [if_neg hab]
    rw [if_pos hab]
    by_cases hn : eqRun (t ++ [c]) < 10
    · rw [if_pos hn]
    · rw [if_neg hn]
      split
      rotate_left
      · rfl
      rename_i c3 r heq
      by_cases hc3 : c3 = ' '
      case neg => rw [if_neg hc3]
      rw [if_pos hc3]
      have hlast : (c3 :: r).getLast? = some c := by
        have hsuf : (t ++ [c]).drop (eqRun (t ++ [c])) <:+ t ++ [c] := List.drop_suffix _ _
        rw [heq] at hsuf
        obtain ⟨pre, hpre⟩ := hsuf
        have hg := congrArg List.getLast? hpre
        rwa [List.getLast?_concat, List.getLast?_append_of_ne_nil _ (by simp)] at hg
      match r, hlast with
      | [], hlast =>
        rw [if_pos (by simp [eqRun])]
      | r0 :: rt, hlast =>
        have hrl : (r0 :: rt).getLast? = some c := by
          rwa [List.getLast?_cons_cons] at hlast
        have hrev : (r0 :: rt).reverse.head? = some c := by
          rw [List.head?_reverse]; exact hrl
        obtain ⟨rv, hrv⟩ : ∃ rv, (r0 :: rt).reverse = c :: rv := by
          match hx : (r0 :: rt).reverse with
          | [] => rw [hx] at hrev; simp at hrev
          | d :: rv =>
            rw [hx] at hrev
            simp only [List.head?_cons, Option.some.injEq] at hrev
            exact ⟨rv, by rw [hrev]⟩
        rw [hrv, eqRun_zero_of_head hc, if_pos (by omega)]

theorem matchSep_sepLine {fp : Str} (hne : fp ≠ []) (hnl : '\n' ∉ fp) :
    matchSep (sepLine fp) = some fp := by
  have h20 : eqRun (List.replicate 20 '=' ++ ' ' :: (fp ++ ' ' :: List.replicate 20 '=')) = 20 :=
    eqRun_replicate_stop (by decide) 20 _
  have hdropA : (List.replicate 20 '=' ++ ' ' :: (fp ++ ' ' :: List.replicate 20 '=')).drop 20
      = ' ' :: (fp ++ ' ' :: List.replicate 20 '=') := by
    have h := List.drop_left (List.replicate 20 '=') (' ' :: (fp ++ ' ' :: List.replicate 20 '='))
    rwa [List.length_replicate] at h
  have hrev : (fp ++ ' ' :: List.replicate 20 '=').reverse
      = List.replicate 20 '=' ++ ' ' :: fp.reverse := by
    rw [List.reverse_append, List.reverse_cons, List.reverse_replicate]
    simp
  have hdropB : (List.replicate 20 '=' ++ ' ' :: fp.reverse).drop 20 = ' ' :: fp.reverse := by
    have h := List.drop_left (List.replicate 20 '=') (' ' :: fp.reverse)
    rwa [List.length_replicate] at h
  show matchSep ('#' :: ' ' :: (List.replicate 20 '=' ++ ' ' :: (fp ++ ' ' :: List.replicate 20 '='))) = some fp
  simp only [matchSep]
  rw [if_pos ⟨trivial, trivial⟩, h20, if_neg (by omega)]
  split
  case h_2 heq => rw [hdropA] at heq; exact absurd heq (by simp)
  rename_i c3 r heq
  rw [hdropA] at heq
  rw [List.cons.injEq] at heq
  obtain ⟨hc3, hr⟩ := heq
  subst hr
  rw [if_pos hc3.symm, hrev, eqRun_replicate_stop (by decide) 20 _, if_neg (by omega)]
  split
  case h_2 heq => rw [hdropB] at heq; exact absurd heq (by simp)
  rename_i c4 grev heq
  rw [hdropB, List.cons.injEq] at heq
  obtain ⟨hc4, hgrev⟩ := heq
  subst hgrev
  rw [if_pos hc4.symm, if_neg (by simpa using hne)]
  rw [if_pos (by
    rw [List.all_eq_true]
    intro c hcm
    rw [List.mem_reverse] at hcm
    simp only [Bool.not_eq_true']
    rw [decide_eq_false_iff_not]
    intro hce
    exact hnl (hce ▸ hcm))]
  rw [List.reverse_reverse]

theorem matchSep_some_shape {l : Str} {fp : Str} (h : matchSep l = some fp) :
    ∃ n m g, 10 ≤ n ∧ 10 ≤ m ∧ g ≠ [] ∧ (∀ c ∈ g, ¬ c = '\n') ∧ fp = g.reverse ∧
      l = '#' :: ' ' :: (List.replicate n '=' ++ ' ' :: (g.reverse ++ ' ' :: List.replicate m '=')) := by
  match l with
  | [] => exact absurd h (by rw [matchSep_nil]; simp)
  | [c] => exact absurd h (by rw [matchSep_single]; simp)
  | a :: b :: rest =>
    simp only [matchSep] at h
    by_cases hab : a = '#' ∧ b = ' '
    case neg => rw [if_neg hab] at h; exact absurd h (by simp)
    rw [if_pos hab] at h
    by_cases hn : eqRun rest < 10
    case pos => rw [if_pos hn] at h; exact absurd h (by simp)
    rw [if_neg hn] at h
    split at h
    rotate_left
    · exact absurd h (by simp)
    rename_i c3 r hdrop
    by_cases hc3 : c3 = ' '
    case neg => rw [if_neg hc3] at h; exact absurd h (by simp)
    rw [if_pos hc3] at h
    by_cases hm : eqRun r.reverse < 10
    case pos => rw [if_pos hm] at h; exact absurd h (by simp)
    rw [if_neg hm] at h
    split at h
    rotate_left
    · exact absurd h (by simp)
    rename_i c4 grev hdrop2
    by_cases hc4 : c4 = ' '
    case neg => rw [if_neg hc4] at h; exact absurd h (by simp)
    rw [if_pos hc4] at h
    by_cases hge : grev = []
    case pos => rw [if_pos hge] at h; exact absurd h (by simp)
    rw [if_neg hge] at h
    by_cases hall : grev.all (fun c => !(c = '\n' : Bool)) = true
    case neg => rw [if_neg hall] at h; exact absurd h (by simp)
    rw [if_pos hall] at h
    have hfp : fp = grev.reverse := by
      simpa using h.symm
    refine ⟨eqRun rest, eqRun r.reverse, grev, by omega, by omega, hge, ?_, hfp, ?_⟩
    · intro c hcm
      have hx := List.all_eq_true.mp hall c hcm
      simpa using hx
    · have hrest : rest = List.replicate (eqRun rest) '=' ++ c3 :: r := by
        conv_lhs => rw [← List.take_append_drop (eqRun rest) rest]
        rw [eqRun_take, hdrop]
      have hr : r = grev.reverse ++ c4 :: List.replicate (eqRun r.reverse) '=' := by
        have hrrev : r.reverse = List.replicate (eqRun r.reverse) '=' ++ c4 :: grev := by
          conv_lhs => rw [← List.take_append_drop (eqRun r.reverse) r.reverse]
          rw [eqRun_take, hdrop2]
        have hg := congrArg List.reverse hrrev
        rw [List.reverse_reverse, List.reverse_append, List.reverse_cons, List.reverse_replicate] at hg
        conv_lhs => rw [hg]
        simp
      conv_lhs => rw [hrest, hr]
      rw [hab.1, hab.2, hc3, hc4]

theorem matchSep_some_nlFree {l : Str} {fp : Str} (h : matchSep l = some fp) : '\n' ∉ l := by
  obtain ⟨n, m, g, _, _, _, hg, _, hl⟩ := matchSep_some_shape h
  rw [hl]
  intro hmem
  simp only [List.mem_cons, List.mem_append, List.mem_replicate, List.mem_reverse] at hmem
  rcases hmem with h1 | h1 | h1 | h1 | h1 | h1
  · exact absurd h1 (by decide)
  · exact absurd h1 (by decide)
  · exact absurd h1.2 (by decide)
  · exact absurd h1 (by decide)
  · exact hg _ h1 rfl
  · rcases h1 with h1 | h1
    · exact absurd h1 (by decide)
    · exact absurd h1.2 (by decide)

/-! ### Section splitting on Composer output -/

theorem sectionsGo_nil_acc (acc : List Str) : sectionsGo acc [] = [joinNl acc.reverse] := rfl

theorem sectionsGo_cons_none {l : Str} (h : matchSep l = none) (acc rest : List Str) :
    sectionsGo acc (l :: rest) = sectionsGo (l :: acc) rest := by
  simp [sectionsGo, h]

theorem sectionsGo_cons_some {l p : Str} (h : matchSep l = some p) (acc rest : List Str) :
    sectionsGo acc (l :: rest) = joinNl (([] :: acc).reverse) :: p :: sectionsGo [[]] rest := by
  simp [sectionsGo, h]

theorem sectionsGo_nomatch_run (ms : List Str) (h : ∀ l ∈ ms, matchSep l = none) :
    ∀ (acc rest : List Str), sectionsGo acc (ms ++ rest) = sectionsGo (ms.reverse ++ acc) rest := by
  induction ms with
  | nil => intro acc rest; rfl
  | cons l ms ih =>
    intro acc rest
    rw [List.cons_append, sectionsGo_cons_none (h l (List.mem_cons_self l ms)),
      ih (fun x hx => h x (List.mem_cons_of_mem l hx)), List.reverse_cons]
    simp

theorem accOf_eq (c : Str) : (splitLines c ++ [[]]).reverse ++ [[]] = accOf c := by
  unfold accOf
  rw [List.reverse_append]
  simp

theorem nl_not_mem_sepLine {fp : Str} (h : '\n' ∉ fp) : '\n' ∉ sepLine fp := by
  unfold sepLine eqs20
  intro hmem
  simp only [List.mem_cons, List.mem_append, List.mem_replicate] at hmem
  rcases hmem with h1 | h1 | h1 | h1 | h1 | h1
  · exact absurd h1 (by decide)
  · exact absurd h1 (by decide)
  · exact absurd h1.2 (by decide)
  · exact absurd h1 (by decide)
  · exact h h1
  · rcases h1 with h1 | h1
    · exact absurd h1 (by decide)
    · exact absurd h1.2 (by decide)

theorem sectionsGo_linesOf (L : List (Str × Str))
    (hg : ∀ e ∈ L, e.1 ≠ [] ∧ '\n' ∉ e.1 ∧ ∀ l ∈ splitLines e.2, matchSep l = none) :
    ∀ acc, sectionsGo acc (linesOf L) = sectionsOfEntries acc L := by
  induction L with
  | nil => intro acc; rfl
  | cons e t ih =>
    intro acc
    obtain ⟨fp, c⟩ := e
    obtain ⟨hne, hnl, hcl⟩ := hg (fp, c) (List.mem_cons_self _ t)
    show sectionsGo acc ((sepLine fp :: (splitLines c ++ [[]])) ++ linesOf t) = _
    rw [List.cons_append, sectionsGo_cons_some (matchSep_sepLine hne hnl)]
    rw [sectionsGo_nomatch_run (splitLines c ++ [[]]) (by
      intro l hl
      rcases List.mem_append.mp hl with hl | hl
      · exact hcl l hl
      · rw [List.mem_singleton.mp hl]; exact matchSep_nil)]
    rw [ih (fun x hx => hg x (List.mem_cons_of_mem _ hx))]
    show joinNl (([] :: acc).reverse) :: fp :: sectionsOfEntries ((splitLines c ++ [[]]).reverse ++ [[]]) t = _
    rw [accOf_eq]
    rfl

theorem joinNl_append_nil_line (xs : List Str) (h : xs ≠ []) :
    joinNl (xs ++ [[]]) = joinNl xs ++ ['\n'] := by
  induction xs with
  | nil => exact absurd rfl h
  | cons x xs ih =>
    match xs, ih with
    | [], _ => rfl
    | y :: ys, ih =>
      rw [List.cons_append, joinNl_cons (by simp), joinNl_cons (by simp), ih (by simp)]
      simp

theorem accOf_last (c : Str) : joinNl ((accOf c).reverse) = '\n' :: (c ++ ['\n']) := by
  unfold accOf
  rw [List.reverse_cons, List.reverse_append]
  show joinNl (([[]].reverse ++ (splitLines c).reverse.reverse) ++ [[]]) = _
  rw [List.reverse_reverse]
  show joinNl (([] :: splitLines c) ++ [[]]) = _
  rw [show ([] :: splitLines c) ++ [[]] = [] :: (splitLines c ++ [[]]) from by simp]
  rw [joinNl_cons (by simp), joinNl_append_nil_line _ (splitLines_ne_nil c), joinNl_splitLines]
  rfl

theorem accOf_flush (c : Str) : joinNl (([] :: accOf c).reverse) = '\n' :: (c ++ ['\n', '\n']) := by
  rw [List.reverse_cons, joinNl_append_nil_line _ (by simp [accOf]), accOf_last]
  simp

/-! ### Dict operations -/

theorem dictLookup_insert_self (d : List (Str × Str)) (k v : Str) :
    dictLookup (dictInsert d k v) k = some v := by
  induction d with
  | nil => simp [dictInsert, dictLookup]
  | cons e t ih =>
    by_cases h : e.1 = k
    · simp [dictInsert, dictLookup, h]
    · simp only [dictInsert, if_neg h]
      simp only [dictLookup, if_neg h]
      exact ih

theorem dictLookup_insert_ne (d : List (Str × Str)) {k k' : Str} (h : ¬ k = k') (v : Str) :
    dictLookup (dictInsert d k v) k' = dictLookup d k' := by
  induction d with
  | nil => simp [dictInsert, dictLookup, h]
  | cons e t ih =>
    by_cases he : e.1 = k
    · simp only [dictInsert, if_pos he]
      simp only [dictLookup, if_neg h, if_neg (he ▸ h)]
    · simp only [dictInsert, if_neg he]
      by_cases he' : e.1 = k'
      · simp only [dictLookup, if_pos he']
      · simp only [dictLookup, if_neg he']
        exact ih

theorem dictInsert_not_mem {d : List (Str × Str)} {k : Str} (h : k ∉ d.map Prod.fst) (v : Str) :
    dictInsert d k v = d ++ [(k, v)] := by
  induction d with
  | nil => rfl
  | cons e t ih =>
    have he : ¬ e.1 = k := by
      intro hk
      exact h (by rw [← hk]; exact List.mem_map_of_mem Prod.fst (List.mem_cons_self e t))
    simp only [dictInsert, if_neg he, List.cons_append, List.cons.injEq, true_and]
    exact ih (fun hk => h (by simp only [List.map_cons]; exact List.mem_cons_of_mem _ hk))

theorem mem_dictInsert {d : List (Str × Str)} {k v : Str} {e : Str × Str}
    (h : e ∈ dictInsert d k v) : e ∈ d ∨ e = (k, v) := by
  induction d with
  | nil =>
    right
    rw [show dictInsert [] k v = [(k, v)] from rfl, List.mem_singleton] at h
    exact h
  | cons f t ih =>
    by_cases hf : f.1 = k
    · simp only [dictInsert, if_pos hf, List.mem_cons] at h
      rcases h with h | h
      · right; exact h
      · left; exact List.mem_cons_of_mem f h
    · simp only [dictInsert, if_neg hf, List.mem_cons] at h
      rcases h with h | h
      · left; exact h ▸ List.mem_cons_self f t
      · rcases ih h with h | h
        · left; exact List.mem_cons_of_mem f h
        · right; exact h

theorem foldl_dictInsert_fresh :
    ∀ (L : List (Str × Str)) (files : List (Str × Str)),
      (∀ e ∈ L, e.1 ∉ files.map Prod.fst) → (L.map Prod.fst).Nodup →
      List.foldl (fun d e => dictInsert d e.1 e.2) files L = files ++ L
  | [], files, _, _ => by simp
  | e :: t, files, hdisj, hnd => by
    rw [List.foldl_cons]
    rw [dictInsert_not_mem (hdisj e (List.mem_cons_self e t)) e.2]
    have hnd' : (t.map Prod.fst).Nodup := by
      rw [List.map_cons, List.nodup_cons] at hnd
      exact hnd.2
    have hdisj' : ∀ x ∈ t, x.1 ∉ (files ++ [(e.1, e.2)]).map Prod.fst := by
      intro x hx
      rw [List.map_append, List.mem_append]
      intro hmem
      rcases hmem with hmem | hmem
      · exact hdisj x (List.mem_cons_of_mem e hx) hmem
      · rw [List.map_cons, List.nodup_cons] at hnd
        simp only [List.map_cons, List.map_nil, List.mem_singleton] at hmem
        exact hnd.1 (hmem ▸ List.mem_map_of_mem Prod.fst hx)
    rw [foldl_dictInsert_fresh t (files ++ [(e.1, e.2)]) hdisj' hnd']
    simp

theorem dictLookup_perm {d1 d2 : List (Str × Str)} (h : d1.Perm d2)
    (hn : (d1.map Prod.fst).Nodup) : ∀ k, dictLookup d1 k = dictLookup d2 k := by
  induction h with
  | nil => intro k; rfl
  | cons e _ ih =>
    intro k
    by_cases he : e.1 = k
    · simp only [dictLookup, if_pos he]
    · simp only [dictLookup, if_neg he]
      rw [List.map_cons, List.nodup_cons] at hn
      exact ih hn.2 k
  | swap x y l =>
    intro k
    have hyx : ¬ y.1 = x.1 := by
      rw [List.map_cons, List.map_cons, List.nodup_cons] at hn
      exact fun hk => hn.1 (hk ▸ List.mem_cons_self x.1 (l.map Prod.fst))
    by_cases hy : y.1 = k <;> by_cases hx : x.1 = k
    · exact absurd (hy.trans hx.symm) hyx
    all_goals simp [dictLookup, hy, hx]
  | trans h12 _ ih12 ih23 =>
    intro k
    rw [ih12 hn k]
    have hn2 : _ := ((h12.map Prod.fst).nodup_iff).mp hn
    exact ih23 hn2 k

/-! ### The content-cleaning step -/

theorem cleanContent_of_plain {c raw : Str} (hraw : pythonStrip raw = c) (hq : notQuoted c) :
    cleanContent raw = c := by
  unfold cleanContent
  simp only [hraw]
  rw [hq.1, hq.2]
  simp

theorem cleanContent_nil : cleanContent [] = [] := rfl

theorem cleanContent_strip (raw : Str) : pythonStrip (cleanContent raw) = cleanContent raw := by
  unfold cleanContent
  by_cases h1 : (isPref tq (pythonStrip raw) && endsW tq (pythonStrip raw)) = true
  · simp only [h1, if_true]
    rw [pythonStrip_idem]
  · rw [Bool.not_eq_true] at h1
    by_cases h2 : (isPref sq (pythonStrip raw) && endsW sq (pythonStrip raw)) = true
    · simp only [h1, h2]
      simp only [if_true, Bool.false_eq_true, if_false]
      rw [pythonStrip_idem]
    · rw [Bool.not_eq_true] at h2
      simp only [h1, h2, Bool.false_eq_true, if_false]
      rw [pythonStrip_idem]

/-! ### Parsing the Composer output -/

theorem parseGo_cons (files : List (Str × Str)) (p c : Str) (rest : List Str) :
    parseGo files (p :: c :: rest) = parseGo (dictInsert files (pythonStrip p) (cleanContent c)) rest := rfl

theorem parse_sec :
    ∀ (L : List (Str × Str)) (fp c : Str) (files : List (Str × Str)),
      (∀ e ∈ (fp, c) :: L, pythonStrip e.1 = e.1 ∧ pythonStrip e.2 = e.2 ∧ notQuoted e.2) →
      parseGo files (fp :: sectionsOfEntries (accOf c) L) =
        List.foldl (fun d e => dictInsert d e.1 e.2) files ((fp, c) :: L)
  | [], fp, c, files, hg => by
    obtain ⟨hfp, hc, hq⟩ := hg (fp, c) (List.mem_cons_self _ _)
    show dictInsert files (pythonStrip fp) (cleanContent (joinNl (accOf c).reverse))
        = dictInsert files fp c
    rw [hfp, accOf_last, cleanContent_of_plain (pythonStrip_wrap hc) hq]
  | (fp2, c2) :: t, fp, c, files, hg => by
    obtain ⟨hfp, hc, hq⟩ := hg (fp, c) (List.mem_cons_self _ _)
    show parseGo files (fp :: joinNl (([] :: accOf c).reverse) :: fp2 :: sectionsOfEntries (accOf c2) t)
        = _
    rw [parseGo_cons]
    rw [hfp, accOf_flush, cleanContent_of_plain (pythonStrip_wrap2 hc) hq]
    rw [parse_sec t fp2 c2 (dictInsert files fp c) (fun e he => hg e (List.mem_cons_of_mem _ he))]
    simp only [List.foldl_cons]

/-! ### Lines of the Composer output -/

theorem contentParts_ne_nil (e : Str × Str) (t : List (Str × Str)) : contentParts (e :: t) ≠ [] := by
  simp [contentParts]

theorem splitLines_contentParts :
    ∀ (L : List (Str × Str)), L ≠ [] → (∀ e ∈ L, '\n' ∉ e.1) →
      splitLines (joinNl (contentParts L)) = linesOf L
  | [], h, _ => absurd rfl h
  | [e], _, hnl => by
    show splitLines (joinNl [sepLine e.1, e.2, []]) = entryLines e ++ []
    rw [joinNl_cons (by simp), joinNl_cons (by simp)]
    rw [show joinNl [([] : Str)] = ([] : Str) from rfl]
    rw [splitLines_append, splitLines_append]
    rw [splitLines_nlFree (nl_not_mem_sepLine (hnl e (List.mem_cons_self e [])))]
    rw [show splitLines ([] : Str) = [([] : Str)] from rfl]
    simp [entryLines]
  | e :: f :: t, _, hnl => by
    show splitLines (joinNl (sepLine e.1 :: e.2 :: [] :: contentParts (f :: t)))
        = entryLines e ++ linesOf (f :: t)
    rw [joinNl_cons (by simp), joinNl_cons (by simp), joinNl_cons (contentParts_ne_nil f t)]
    rw [List.nil_append]
    rw [splitLines_append, splitLines_append]
    rw [splitLines_nlFree (nl_not_mem_sepLine (hnl e (List.mem_cons_self _ _)))]
    rw [splitLines_cons_nl]
    rw [splitLines_contentParts (f :: t) (by simp) (fun x hx => hnl x (List.mem_cons_of_mem e hx))]
    simp [entryLines, linesOf]

/-- On a mapping whose paths are well-formed and whose contents are
strip-invariant, unquoted and free of separator lines, the Splitter applied
to the Composer output performs exactly the dict insertions of the sorted
entry list. -/
theorem parse_generate (M : List (Str × Str))
    (hgood : ∀ e ∈ M, goodPath e.1 ∧ goodContent e.2) :
    _parse_spec_file (_generate_spec_content M) =
      List.foldl (fun d e => dictInsert d e.1 e.2) [] (List.insertionSort pairLe M) := by
  have hperm := List.perm_insertionSort pairLe M
  have hgS : ∀ e ∈ List.insertionSort pairLe M, goodPath e.1 ∧ goodContent e.2 :=
    fun e he => hgood e (hperm.mem_iff.mp he)
  unfold _generate_spec_content _parse_spec_file
  cases hS : List.insertionSort pairLe M with
  | nil => rfl
  | cons e t =>
    rw [hS] at hgS
    rw [splitLines_contentParts (e :: t) (by simp) (fun x hx => ((hgS x hx).1).2.1)]
    rw [sectionsGo_linesOf (e :: t)
      (fun x hx => ⟨((hgS x hx).1).1, ((hgS x hx).1).2.1, ((hgS x hx).2).2.2⟩) []]
    obtain ⟨fp, c⟩ := e
    show parseGo [] (fp :: sectionsOfEntries (accOf c) t) = _
    rw [parse_sec t fp c []
      (fun x hx => ⟨((hgS x hx).1).2.2, ((hgS x hx).2).1, ((hgS x hx).2).2.1⟩)]

/-! ### The sort order -/

theorem strLtB_irrefl : ∀ s : Str, strLtB s s = false
  | [] => rfl
  | a :: as => by
    simp only [strLtB]
    rw [if_neg (lt_irrefl a), if_pos (by trivial)]
    exact strLtB_irrefl as

theorem strLtB_trans : ∀ {s t u : Str}, strLtB s t = true → strLtB t u = true → strLtB s u = true
  | [], [], _, h1, _ => by simp [strLtB] at h1
  | [], _ :: _, [], _, h2 => by simp [strLtB] at h2
  | [], _ :: _, _ :: _, _, _ => rfl
  | _ :: _, [], _, h1, _ => by simp [strLtB] at h1
  | _ :: _, _ :: _, [], _, h2 => by simp [strLtB] at h2
  | a :: as, b :: bs, c :: cs, h1, h2 => by
    simp only [strLtB] at h1 h2 ⊢
    by_cases hab : a < b
    · by_cases hbc : b < c
      · rw [if_pos (lt_trans hab hbc)]
      · rw [if_neg hbc] at h2
        by_cases hbc2 : b = c
        · subst hbc2
          rw [if_pos hab]
        · rw [if_neg hbc2] at h2
          exact absurd h2 (by simp)
    · rw [if_neg hab] at h1
      by_cases hab2 : a = b
      · subst hab2
        rw [if_pos (by trivial)] at h1
        by_cases hac : a < c
        · rw [if_pos hac]
        · rw [if_neg hac] at h2 ⊢
          by_cases hac2 : a = c
          · rw [if_pos hac2] at h2 ⊢
            exact strLtB_trans h1 h2
          · rw [if_neg hac2] at h2
            exact absurd h2 (by simp)
      · rw [if_neg hab2] at h1
        exact absurd h1 (by simp)

theorem strLtB_total3 : ∀ s t : Str, strLtB s t = true ∨ s = t ∨ strLtB t s = true
  | [], [] => Or.inr (Or.inl rfl)
  | [], _ :: _ => Or.inl rfl
  | _ :: _, [] => Or.inr (Or.inr rfl)
  | a :: as, b :: bs => by
    rcases lt_trichotomy a b with h | h | h
    · left
      simp only [strLtB]
      rw [if_pos h]
    · subst h
      rcases strLtB_total3 as bs with h2 | h2 | h2
      · left
        simp only [strLtB]
        rw [if_neg (lt_irrefl a), if_pos (by trivial)]
        exact h2
      · right; left
        rw [h2]
      · right; right
        simp only [strLtB]
        rw [if_neg (lt_irrefl a), if_pos (by trivial)]
        exact h2
    · right; right
      simp only [strLtB]
      rw [if_pos h]

theorem strLtB_asymm {s t : Str} (h : strLtB s t = true) : strLtB t s = false := by
  by_contra hc
  rw [Bool.not_eq_false] at hc
  have hss := strLtB_trans h hc
  rw [strLtB_irrefl] at hss
  exact absurd hss (by simp)

theorem pairLe_isTrans : IsTrans (Str × Str) pairLe := by
  constructor
  rintro a b c (h1 | ⟨h1, h1'⟩) (h2 | ⟨h2, h2'⟩)
  · exact Or.inl (strLtB_trans h1 h2)
  · left
    rw [← h2]
    exact h1
  · left
    rw [h1]
    exact h2
  · refine Or.inr ⟨h1.trans h2, ?_⟩
    rcases h1' with h1' | h1' <;> rcases h2' with h2' | h2'
    · exact Or.inl (strLtB_trans h1' h2')
    · left
      rw [← h2']
      exact h1'
    · left
      rw [h1']
      exact h2'
    · exact Or.inr (h1'.trans h2')

theorem pairLe_isAntisymm : IsAntisymm (Str × Str) pairLe := by
  constructor
  rintro a b (h1 | ⟨h1, h1'⟩) (h2 | ⟨h2, h2'⟩)
  · have hf := strLtB_asymm h1
    rw [h2] at hf
    exact absurd hf (by simp)
  · rw [h2] at h1
    rw [strLtB_irrefl] at h1
    exact absurd h1 (by simp)
  · rw [h1] at h2
    rw [strLtB_irrefl] at h2
    exact absurd h2 (by simp)
  · have hsnd : a.2 = b.2 := by
      rcases h1' with h1' | h1'
      · rcases h2' with h2' | h2'
        · have hf := strLtB_asymm h1'
          rw [h2'] at hf
          exact absurd hf (by simp)
        · exact h2'.symm
      · exact h1'
    exact Prod.ext h1 hsnd

theorem pairLe_isTotal : IsTotal (Str × Str) pairLe := by
  constructor
  intro a b
  rcases strLtB_total3 a.1 b.1 with h | h | h
  · exact Or.inl (Or.inl h)
  · rcases strLtB_total3 a.2 b.2 with h2 | h2 | h2
    · exact Or.inl (Or.inr ⟨h, Or.inl h2⟩)
    · exact Or.inl (Or.inr ⟨h, Or.inr h2⟩)
    · exact Or.inr (Or.inr ⟨h.symm, Or.inl h2⟩)
  · exact Or.inr (Or.inl h)

/-! ### Scanner -/

theorem scanGo_cons_skip {root rel : Str} {files : List (Str × Str)}
    {rest : List (Str × ReadResult)} {rr : ReadResult}
    (h : should_skip (root ++ '/' :: rel) = true) :
    scanGo root files ((rel, rr) :: rest) = scanGo root files rest := by
  simp [scanGo, h]

theorem scanGo_cons_text {root rel c : Str} {files : List (Str × Str)}
    {rest : List (Str × ReadResult)}
    (h : should_skip (root ++ '/' :: rel) = false) :
    scanGo root files ((rel, .text c) :: rest) = scanGo root (dictInsert files rel c) rest := by
  simp [scanGo, h]

theorem scanGo_cons_binary {root rel : Str} {files : List (Str × Str)}
    {rest : List (Str × ReadResult)}
    (h : should_skip (root ++ '/' :: rel) = false) :
    scanGo root files ((rel, .binaryData) :: rest) = scanGo root files rest := by
  simp [scanGo, h]

theorem scanGo_cons_perm {root rel : Str} {files : List (Str × Str)}
    {rest : List (Str × ReadResult)}
    (h : should_skip (root ++ '/' :: rel) = false) :
    scanGo root files ((rel, .permissionDenied) :: rest) = .error () := by
  simp [scanGo, h]

theorem takeWhile_append_stop {p : Char → Bool} {c : Char} (hc : p c = false) :
    ∀ (xs ys : Str), (xs ++ c :: ys).takeWhile p = xs.takeWhile p
  | [], ys => by simp [List.takeWhile, hc]
  | x :: xs, ys => by
    by_cases hx : p x = true
    · rw [List.cons_append, List.takeWhile_cons_of_pos hx, List.takeWhile_cons_of_pos hx,
        takeWhile_append_stop hc xs ys]
    · rw [Bool.not_eq_true] at hx
      rw [List.cons_append, List.takeWhile_cons_of_neg (by simp [hx]),
        List.takeWhile_cons_of_neg (by simp [hx])]

theorem lastName_append (root rel : Str) : lastName (root ++ '/' :: rel) = lastName rel := by
  unfold lastName
  rw [List.reverse_append, List.reverse_cons, List.append_assoc, List.singleton_append]
  rw [takeWhile_append_stop (by simp) rel.reverse root.reverse]

theorem should_skip_of_dot {full : Str} (hdot : isPref ['.'] (lastName full) = true)
    (hne : ¬ lastName full = ".env.example".toList) : should_skip full = true := by
  unfold should_skip
  rw [List.any_eq_true]
  refine ⟨"__pycache__".toList, by simp [skip_patterns], ?_⟩
  rw [Bool.or_eq_true, Bool.and_eq_true]
  right
  exact ⟨hdot, by simpa using hne⟩

theorem scanGo_skip_not_mem (root : Str) :
    ∀ (entries : List (Str × ReadResult)) (files res : List (Str × Str)),
      scanGo root files entries = .ok res →
      ∀ k, should_skip (root ++ '/' :: k) = true → dictLookup files k = none →
        dictLookup res k = none
  | [], files, res, h, k, _, hf => by
    rw [show scanGo root files [] = .ok files from rfl] at h
    cases h
    exact hf
  | (rel, rr) :: rest, files, res, h, k, hs, hf => by
    by_cases hskip : should_skip (root ++ '/' :: rel) = true
    · rw [scanGo_cons_skip hskip] at h
      exact scanGo_skip_not_mem root rest files res h k hs hf
    · rw [Bool.not_eq_true] at hskip
      have hkr : ¬ rel = k := by
        intro hrk
        rw [hrk] at hskip
        rw [hs] at hskip
        exact absurd hskip (by simp)
      cases rr with
      | text c =>
        rw [scanGo_cons_text hskip] at h
        refine scanGo_skip_not_mem root rest _ res h k hs ?_
        rw [dictLookup_insert_ne files hkr c]
        exact hf
      | binaryData =>
        rw [scanGo_cons_binary hskip] at h
        exact scanGo_skip_not_mem root rest files res h k hs hf
      | permissionDenied =>
        rw [scanGo_cons_perm hskip] at h
        exact absurd h (by simp)

theorem scanGo_perm_aborts (root : Str) :
    ∀ (pre : List (Str × ReadResult)) (files : List (Str × Str)) (rel : Str)
      (rest : List (Str × ReadResult)),
      (∀ e ∈ pre, e.2 = ReadResult.permissionDenied → should_skip (root ++ '/' :: e.1) = true) →
      should_skip (root ++ '/' :: rel) = false →
      scanGo root files (pre ++ (rel, ReadResult.permissionDenied) :: rest) = .error ()
  | [], files, rel, rest, _, hrel => by
    rw [List.nil_append, scanGo_cons_perm hrel]
  | (r0, rr0) :: pre, files, rel, rest, hpre, hrel => by
    rw [List.cons_append]
    by_cases hs : should_skip (root ++ '/' :: r0) = true
    · rw [scanGo_cons_skip hs]
      exact scanGo_perm_aborts root pre files rel rest
        (fun e he h2 => hpre e (List.mem_cons_of_mem _ he) h2) hrel
    · rw [Bool.not_eq_true] at hs
      cases rr0 with
      | text c =>
        rw [scanGo_cons_text hs]
        exact scanGo_perm_aborts root pre _ rel rest
          (fun e he h2 => hpre e (List.mem_cons_of_mem _ he) h2) hrel
      | binaryData =>
        rw [scanGo_cons_binary hs]
        exact scanGo_perm_aborts root pre files rel rest
          (fun e he h2 => hpre e (List.mem_cons_of_mem _ he) h2) hrel
      | permissionDenied =>
        have := hpre (r0, ReadResult.permissionDenied) (List.mem_cons_self _ _) rfl
        rw [hs] at this
        exact absurd this (by simp)

/-! ### The claims -/

/-- C2: filify.py's `should_skip` compares each skip pattern as a literal
substring of the full path string.  On the directory of the claim this
retains `a.log` (the glob-style entry `*.log` never matches as a substring)
and excludes `.env.example` (the `.env` pattern substring-matches it,
overriding the allow-list), contradicting the claimed exclusion set.  The
theorem evaluates the modelled Scanner at the claim's directory. -/
theorem c2_exclusions_eval :
    _scan_directory ("project".toList)
      [(".git/config".toList, ReadResult.text ("x".toList)),
       ("node_modules/x.js".toList, ReadResult.text ("y".toList)),
       ("a.log".toList, ReadResult.text ("z".toList)),
       (".env.example".toList, ReadResult.text ("w".toList))]
      = .ok [("a.log".toList, "z".toList)] := rfl

/-- C3 counterexample: a file `.config/settings.txt`, whose dot component is
a directory, is *included* by the Scanner (only the final path component is
tested for a leading dot), refuting the claim at a concrete input. -/
theorem c3_counterexample :
    _scan_directory ("project".toList)
      [(".config/settings.txt".toList, ReadResult.text ("x".toList))]
      = .ok [(".config/settings.txt".toList, "x".toList)] := rfl

/-- C3 (amended): the Scanner omits every file whose *final* path component
begins with `.` and is not the allow-listed name `.env.example`; a dot
component in directory position does not trigger the dot rule. -/
theorem c3_dot_final_component (root : Str) (entries : List (Str × ReadResult))
    (res : List (Str × Str)) (h : _scan_directory root entries = .ok res)
    (rel : Str) (hdot : isPref ['.'] (lastName rel) = true)
    (hne : ¬ lastName rel = ".env.example".toList) :
    dictLookup res rel = none := by
  unfold _scan_directory at h
  refine scanGo_skip_not_mem root entries [] res h rel ?_ rfl
  exact should_skip_of_dot (by rw [lastName_append]; exact hdot)
    (by rw [lastName_append]; exact hne)

theorem c3_dot_final_component_witness :
    dictLookup [] (".hidden".toList) = none :=
  c3_dot_final_component ("project".toList)
    [(".hidden".toList, ReadResult.text ("x".toList))] [] rfl
    (".hidden".toList) (by decide) (by decide)

/-- C4 counterexample: a permission error on the first (non-excluded) file
aborts the whole scan with an error; the remaining file `b.txt` is never
reported, refuting the claim that the Scanner skips the unreadable file and
returns normally. -/
theorem c4_counterexample :
    _scan_directory ("project".toList)
      [("a.txt".toList, ReadResult.permissionDenied),
       ("b.txt".toList, ReadResult.text ("hi".toList))]
      = .error () := rfl

/-- C4 (amended): only `UnicodeDecodeError` is caught per file; a permission
error while reading any non-excluded file propagates out of
`_scan_directory` and aborts the whole scan (the error reaches the
top-level handler, which terminates the run). -/
theorem c4_permission_error_aborts (root : Str) (pre : List (Str × ReadResult))
    (rel : Str) (rest : List (Str × ReadResult))
    (hpre : ∀ e ∈ pre, e.2 = ReadResult.permissionDenied →
      should_skip (root ++ '/' :: e.1) = true)
    (hrel : should_skip (root ++ '/' :: rel) = false) :
    _scan_directory root (pre ++ (rel, ReadResult.permissionDenied) :: rest) = .error () :=
  scanGo_perm_aborts root pre [] rel rest hpre hrel

theorem c4_permission_error_aborts_witness :
    _scan_directory ("project".toList)
      [("ok.txt".toList, ReadResult.text ("fine".toList)),
       ("locked.txt".toList, ReadResult.permissionDenied),
       ("later.txt".toList, ReadResult.text ("never".toList))]
      = .error () :=
  c4_permission_error_aborts ("project".toList)
    [("ok.txt".toList, ReadResult.text ("fine".toList))]
    ("locked.txt".toList)
    [("later.txt".toList, ReadResult.text ("never".toList))]
    (by decide) (by decide)

/-- C5: the Composer is a deterministic function of the multiset of
(path, content) pairs — equal mappings given in any insertion order produce
byte-identical documents — and the entries are emitted sorted ascending, so
the emitted path sequence is lexicographically ascending. -/
theorem c5_composer_deterministic :
    (∀ d1 d2 : List (Str × Str), d1.Perm d2 →
      _generate_spec_content d1 = _generate_spec_content d2) ∧
    (∀ d : List (Str × Str),
      List.Sorted (fun s t : Str => strLtB s t = true ∨ s = t)
        ((List.insertionSort pairLe d).map Prod.fst)) := by
  haveI := pairLe_isTotal
  haveI := pairLe_isTrans
  haveI := pairLe_isAntisymm
  constructor
  · intro d1 d2 hp
    have hs1 := List.sorted_insertionSort pairLe d1
    have hs2 := List.sorted_insertionSort pairLe d2
    have hperm : (List.insertionSort pairLe d1).Perm (List.insertionSort pairLe d2) :=
      (List.perm_insertionSort pairLe d1).trans
        (hp.trans (List.perm_insertionSort pairLe d2).symm)
    unfold _generate_spec_content
    rw [List.eq_of_perm_of_sorted hperm hs1 hs2]
  · intro d
    have hs := List.sorted_insertionSort pairLe d
    exact hs.map Prod.fst (fun a b hab => by
      rcases hab with h | ⟨h, _⟩
      · exact Or.inl h
      · exact Or.inr h)

theorem c5_composer_deterministic_witness :
    _generate_spec_content [("b.txt".toList, "two".toList), ("a.txt".toList, "one".toList)]
      = _generate_spec_content [("a.txt".toList, "one".toList), ("b.txt".toList, "two".toList)] :=
  c5_composer_deterministic.1 _ _
    (List.Perm.swap ("a.txt".toList, "one".toList) ("b.txt".toList, "two".toList) [])

/-- C9: every write of the Materializer sets the permission bits to 0o755
(`rwxr-xr-x`) exactly when the written path ends with `.sh`; any other path
gets no permission change (`mode = none`). -/
theorem c9_executable_bit (files : List (Str × Str)) (w : WriteOp)
    (h : w ∈ _create_directory_structure files) :
    w.mode = some 0o755 ↔ endsW (".sh".toList) w.path = true := by
  unfold _create_directory_structure at h
  obtain ⟨e, _, hw⟩ := List.mem_map.mp h
  subst hw
  by_cases hsh : endsW (".sh".toList) e.1 = true
  · simp [hsh]
  · rw [Bool.not_eq_true] at hsh
    simp [hsh]

theorem c9_executable_bit_witness :
    (({ path := "run.sh".toList, fileContent := "echo hi".toList,
        mode := some 0o755 } : WriteOp).mode = some 0o755
      ↔ endsW (".sh".toList) ("run.sh".toList) = true) :=
  c9_executable_bit [("run.sh".toList, "echo hi".toList)] _ (by decide)

theorem parseGo_strip_invariant :
    ∀ (ss : List Str) (files : List (Str × Str)),
      (∀ e ∈ files, pythonStrip e.1 = e.1 ∧ pythonStrip e.2 = e.2) →
      ∀ e ∈ parseGo files ss, pythonStrip e.1 = e.1 ∧ pythonStrip e.2 = e.2
  | [], _, hf => hf
  | [_], _, hf => hf
  | _ :: _ :: rest, files, hf => by
    intro e he
    refine parseGo_strip_invariant rest _ ?_ e he
    intro x hx
    rcases mem_dictInsert hx with hx | hx
    · exact hf x hx
    · rw [hx]
      exact ⟨pythonStrip_idem _, cleanContent_strip _⟩

/-- C10: every key and every value of the mapping produced by the Splitter
is whitespace-trimmed — it equals its own Python `strip()`. -/
theorem c10_parse_trimmed (doc : Str) (k v : Str) (h : (k, v) ∈ _parse_spec_file doc) :
    pythonStrip k = k ∧ pythonStrip v = v :=
  parseGo_strip_invariant _ []
    (fun e he => absurd he (List.not_mem_nil e)) (k, v) h

theorem c10_parse_trimmed_witness :
    pythonStrip ("a".toList) = "a".toList ∧ pythonStrip ("x".toList) = "x".toList :=
  c10_parse_trimmed
    ("# ==================== a ====================\nx".toList) _ _ (by decide)

/-! ### Quote unwrapping -/

theorem isPref_self : ∀ (p x : Str), isPref p (p ++ x) = true
  | [], _ => rfl
  | a :: p, x => by simp [isPref, isPref_self p x]

theorem isPref_cons_ne {a b : Char} (h : ¬ a = b) (p s : Str) :
    isPref (a :: p) (b :: s) = false := by
  simp [isPref, h]

theorem pythonStrip_block {u : Char} (hu : isPySpace u = false) (t : Str) :
    pythonStrip ([u, u, u] ++ (t ++ [u, u, u])) = [u, u, u] ++ (t ++ [u, u, u]) := by
  rw [show ([u, u, u] : Str) ++ (t ++ [u, u, u]) = u :: ((u :: u :: (t ++ [u, u])) ++ [u]) from by
    simp]
  rw [pythonStrip_of_ends hu hu]

theorem endsW_q_block (u : Char) (t : Str) :
    endsW [u, u, u] ([u, u, u] ++ (t ++ [u, u, u])) = true := by
  unfold endsW
  rw [List.reverse_append, List.reverse_append]
  rw [show ([u, u, u] : Str).reverse = [u, u, u] from rfl]
  rw [List.append_assoc]
  exact isPref_self [u, u, u] _

theorem block_lines_nomatch {u : Char} (hu1 : ¬ u = '#') (hu2 : ¬ u = '=')
    (hu3 : '\n' ∉ ([u, u, u] : Str))
    {t : Str} (htl : ∀ l ∈ splitLines t, matchSep l = none) :
    ∀ l ∈ splitLines ([u, u, u] ++ (t ++ [u, u, u])), matchSep l = none := by
  obtain ⟨h0, ls0, hy, hxy⟩ := splitLines_append_left (x := [u, u, u]) hu3 (t ++ [u, u, u])
  obtain ⟨init, la, hz, hzw⟩ := splitLines_append_right (w := [u, u, u]) hu3 t
  intro l hl
  rw [hxy] at hl
  rcases List.mem_cons.mp hl with hl | hl
  · subst hl
    rw [show ([u, u, u] : Str) ++ h0 = u :: u :: (u :: h0) from rfl]
    exact matchSep_cons_ne hu1 _ _
  · have heq : h0 :: ls0 = init ++ [la ++ [u, u, u]] := by rw [← hy, hzw]
    cases init with
    | nil =>
      rw [List.nil_append] at heq
      injection heq with h1 h2
      rw [h2] at hl
      exact absurd hl (List.not_mem_nil l)
    | cons i0 it =>
      rw [List.cons_append, List.cons.injEq] at heq
      rw [heq.2] at hl
      rcases List.mem_append.mp hl with hl | hl
      · refine htl l ?_
        rw [hz]
        exact List.mem_append_left _ (List.mem_cons_of_mem i0 hl)
      · rw [List.mem_singleton.mp hl]
        rw [show la ++ [u, u, u] = (la ++ [u, u]) ++ [u] from by simp]
        exact matchSep_none_last hu2

theorem rev_acc_block (x : Str) : ((splitLines x).reverse ++ [[]]).reverse = [] :: splitLines x := by
  rw [List.reverse_append, List.reverse_reverse]
  rfl

theorem joinNl_nl_lines (x : Str) : joinNl ([] :: splitLines x) = '\n' :: x := by
  rw [joinNl_cons (splitLines_ne_nil x), joinNl_splitLines]
  rfl

theorem cleanTail (u : Char) (t : Str) (ht : pythonStrip t = t) :
    pythonStrip ((([u, u, u] ++ (t ++ [u, u, u])).drop 3).take
      (([u, u, u] ++ (t ++ [u, u, u])).length - 6)) = t := by
  rw [show ([u, u, u] ++ (t ++ [u, u, u]) : Str).drop 3 = t ++ [u, u, u] from by
    have h := List.drop_left ([u, u, u] : Str) (t ++ [u, u, u])
    rwa [show ([u, u, u] : Str).length = 3 from rfl] at h]
  rw [show (([u, u, u] : Str) ++ (t ++ [u, u, u])).length - 6 = t.length from by simp]
  rw [List.take_left t [u, u, u]]
  exact ht

theorem cleanContent_quoted_tq (t : Str) (ht : pythonStrip t = t) :
    cleanContent ('\n' :: ([dq, dq, dq] ++ (t ++ [dq, dq, dq]))) = t := by
  simp only [cleanContent]
  rw [pythonStrip_cons_space (by decide), pythonStrip_block (by decide)]
  rw [show isPref tq ([dq, dq, dq] ++ (t ++ [dq, dq, dq])) = true from
    isPref_self tq (t ++ [dq, dq, dq])]
  rw [show endsW tq ([dq, dq, dq] ++ (t ++ [dq, dq, dq])) = true from endsW_q_block dq t]
  simp only [Bool.and_self, if_true]
  exact cleanTail dq t ht

theorem cleanContent_quoted_sq (t : Str) (ht : pythonStrip t = t) :
    cleanContent ('\n' :: ([qt, qt, qt] ++ (t ++ [qt, qt, qt]))) = t := by
  simp only [cleanContent]
  rw [pythonStrip_cons_space (by decide), pythonStrip_block (by decide)]
  rw [show isPref tq ([qt, qt, qt] ++ (t ++ [qt, qt, qt])) = false from
    isPref_cons_ne (by decide) _ _]
  rw [if_neg (by simp)]
  rw [show isPref sq ([qt, qt, qt] ++ (t ++ [qt, qt, qt])) = true from
    isPref_self sq (t ++ [qt, qt, qt])]
  rw [show endsW sq ([qt, qt, qt] ++ (t ++ [qt, qt, qt])) = true from endsW_q_block qt t]
  simp only [Bool.and_self, if_true]
  exact cleanTail qt t ht

theorem parse_quoted_block (u : Char) (hu1 : ¬ u = '#') (hu2 : ¬ u = '=')
    (hu3 : '\n' ∉ ([u, u, u] : Str))
    (fp t : Str) (hfp : goodPath fp)
    (htl : ∀ l ∈ splitLines t, matchSep l = none)
    (hclean : cleanContent ('\n' :: ([u, u, u] ++ (t ++ [u, u, u]))) = t) :
    _parse_spec_file (sepLine fp ++ '\n' :: ([u, u, u] ++ (t ++ [u, u, u]))) = [(fp, t)] := by
  unfold _parse_spec_file
  rw [splitLines_append, splitLines_nlFree (nl_not_mem_sepLine hfp.2.1), List.singleton_append]
  rw [sectionsGo_cons_some (matchSep_sepLine hfp.1 hfp.2.1)]
  rw [show splitLines ([u, u, u] ++ (t ++ [u, u, u]))
      = splitLines ([u, u, u] ++ (t ++ [u, u, u])) ++ [] from (List.append_nil _).symm]
  rw [sectionsGo_nomatch_run _ (block_lines_nomatch hu1 hu2 hu3 htl)]
  rw [sectionsGo_nil_acc]
  rw [rev_acc_block, joinNl_nl_lines]
  show dictInsert [] (pythonStrip fp)
      (cleanContent ('\n' :: ([u, u, u] ++ (t ++ [u, u, u])))) = [(fp, t)]
  rw [hfp.2.2, hclean]
  rfl

/-- C6: a content block fenced by one pair of a matching triple-quote
delimiter — either `"""` or `\x27\x27\x27` — is unwrapped by the Splitter:
exactly one pair of the delimiters is stripped and the inner text is
re-trimmed, so a single-entry document whose block is the delimiter, then
`t`, then the delimiter, parses to content `t`; in particular
`"""hello\nworld"""` parses to the two-line text `hello\nworld`. -/
theorem c6_quote_unwrap (q fp t : Str) (hq : q = tq ∨ q = sq) (hfp : goodPath fp)
    (ht : pythonStrip t = t) (htl : ∀ l ∈ splitLines t, matchSep l = none) :
    _parse_spec_file (sepLine fp ++ '\n' :: (q ++ (t ++ q))) = [(fp, t)] := by
  rcases hq with hq | hq <;> subst hq
  · exact parse_quoted_block dq (by decide) (by decide) (by decide) fp t hfp htl
      (cleanContent_quoted_tq t ht)
  · exact parse_quoted_block qt (by decide) (by decide) (by decide) fp t hfp htl
      (cleanContent_quoted_sq t ht)

theorem c6_quote_unwrap_witness :
    _parse_spec_file (sepLine ("a".toList) ++ '\n' :: (tq ++ ("hello\nworld".toList ++ tq)))
        = [("a".toList, "hello\nworld".toList)]
    ∧ _parse_spec_file (sepLine ("b".toList) ++ '\n' :: (sq ++ ("quoted text".toList ++ sq)))
        = [("b".toList, "quoted text".toList)] :=
  ⟨c6_quote_unwrap tq ("a".toList) ("hello\nworld".toList) (Or.inl rfl)
      (by decide) (by decide) (by decide),
   c6_quote_unwrap sq ("b".toList) ("quoted text".toList) (Or.inr rfl)
      (by decide) (by decide) (by decide)⟩

/-! ### Trailing separator and duplicate paths -/

theorem sectionsGo_append_last_sep {l fp : Str} (hm : matchSep l = some fp) :
    ∀ (ls acc : List Str), ∃ ss : List Str,
      sectionsGo acc (ls ++ [l]) = ss ++ [fp, []] ∧ ss.length % 2 = 1
  | [], acc => by
    rw [List.nil_append, sectionsGo_cons_some hm]
    exact ⟨[joinNl (([] :: acc).reverse)], rfl, rfl⟩
  | l0 :: rest, acc => by
    cases hm0 : matchSep l0 with
    | some p0 =>
      rw [List.cons_append, sectionsGo_cons_some hm0]
      obtain ⟨ss, hss, hlen⟩ := sectionsGo_append_last_sep hm rest [[]]
      refine ⟨joinNl (([] :: acc).reverse) :: p0 :: ss, ?_, ?_⟩
      · rw [hss]
        rfl
      · simp only [List.length_cons]
        omega
    | none =>
      rw [List.cons_append, sectionsGo_cons_none hm0]
      exact sectionsGo_append_last_sep hm rest (l0 :: acc)

theorem parseGo_append_pair :
    ∀ (ss : List Str), ss.length % 2 = 0 → ∀ (files : List (Str × Str)) (p c : Str),
      parseGo files (ss ++ [p, c]) = dictInsert (parseGo files ss) (pythonStrip p) (cleanContent c)
  | [], _, files, p, c => rfl
  | [a], h, _, _, _ => by simp at h
  | a :: b :: t, h, files, p, c => by
    show parseGo (dictInsert files (pythonStrip a) (cleanContent b)) (t ++ [p, c]) = _
    rw [parseGo_append_pair t (by simp only [List.length_cons] at h; omega) _ p c]
    rfl

/-- C7: a document whose last line is a separator line, with nothing after
it, still yields a mapping entry for that separator's (stripped) path, with
the empty string as its content. -/
theorem c7_trailing_separator (doc pre l fp : Str) (hm : matchSep l = some fp)
    (hdoc : doc = l ∨ doc = pre ++ '\n' :: l) :
    dictLookup (_parse_spec_file doc) (pythonStrip fp) = some [] := by
  have hnl : '\n' ∉ l := matchSep_some_nlFree hm
  have hll : splitLines l = [l] := splitLines_nlFree hnl
  obtain ⟨ls, hls⟩ : ∃ ls, splitLines doc = ls ++ [l] := by
    rcases hdoc with h | h
    · exact ⟨[], by rw [h, hll, List.nil_append]⟩
    · exact ⟨splitLines pre, by rw [h, splitLines_append, hll]⟩
  unfold _parse_spec_file
  rw [hls]
  obtain ⟨ss, hss, hodd⟩ := sectionsGo_append_last_sep hm ls []
  rw [hss]
  match ss, hodd with
  | s0 :: ss', hodd =>
    rw [show (s0 :: ss') ++ [fp, []] = s0 :: (ss' ++ [fp, []]) from rfl]
    rw [show (s0 :: (ss' ++ [fp, []])).drop 1 = ss' ++ [fp, []] from rfl]
    rw [parseGo_append_pair ss' (by simp only [List.length_cons] at hodd; omega) [] fp []]
    rw [cleanContent_nil]
    exact dictLookup_insert_self _ _ _

theorem c7_trailing_separator_witness :
    dictLookup
      (_parse_spec_file ("intro text\n# ========== src/main.py ==========".toList))
      (pythonStrip ("src/main.py".toList)) = some [] :=
  c7_trailing_separator _ ("intro text".toList)
    ("# ========== src/main.py ==========".toList) ("src/main.py".toList)
    (by decide) (Or.inr rfl)

theorem parseGo_lookup_lastWins :
    ∀ (ss : List Str) (files : List (Str × Str)) (k : Str),
      dictLookup (parseGo files ss) k
        = match lastWins (pairsOf ss) k with
          | some v => some v
          | none => dictLookup files k
  | [], _, _ => rfl
  | [_], _, _ => rfl
  | p :: c :: rest, files, k => by
    show dictLookup (parseGo (dictInsert files (pythonStrip p) (cleanContent c)) rest) k = _
    rw [parseGo_lookup_lastWins rest _ k]
    rw [show pairsOf (p :: c :: rest) = (pythonStrip p, cleanContent c) :: pairsOf rest from rfl]
    cases hlw : lastWins (pairsOf rest) k with
    | some v =>
      rw [show lastWins ((pythonStrip p, cleanContent c) :: pairsOf rest) k
          = some v from by rw [show lastWins ((pythonStrip p, cleanContent c) :: pairsOf rest) k
            = match lastWins (pairsOf rest) k with
              | some v => some v
              | none => if pythonStrip p = k then some (cleanContent c) else none from rfl,
            hlw]]
    | none =>
      rw [show lastWins ((pythonStrip p, cleanContent c) :: pairsOf rest) k
          = if pythonStrip p = k then some (cleanContent c) else none from by
        rw [show lastWins ((pythonStrip p, cleanContent c) :: pairsOf rest) k
            = match lastWins (pairsOf rest) k with
              | some v => some v
              | none => if pythonStrip p = k then some (cleanContent c) else none from rfl,
          hlw]]
      by_cases hp : pythonStrip p = k
      · rw [if_pos hp, hp, dictLookup_insert_self]
      · rw [if_neg hp, dictLookup_insert_ne files hp (cleanContent c)]

/-- C8: the mapping built by the Splitter binds every path to the content
of its latest occurrence in document order: looking up any key in the parse
result equals taking the last matching (path, content) pair among the
document's section pairs. -/
theorem c8_last_occurrence_wins (doc : Str) (k : Str) :
    dictLookup (_parse_spec_file doc) k = lastWins (parsedPairs doc) k := by
  unfold _parse_spec_file parsedPairs
  rw [parseGo_lookup_lastWins]
  cases hlw : lastWins (pairsOf ((sectionsGo [] (splitLines doc)).drop 1)) k with
  | some v => rfl
  | none => rfl

/-- C1 counterexample: the mapping `{"a": " x"}` has a value containing no
line matching the separator pattern, yet `Splitter(Composer(M))` binds
`"a"` to `"x"` — the Splitter trims content — so the round trip does not
reproduce `M` for every separator-free mapping as claimed. -/
theorem c1_roundtrip_counterexample :
    ¬ dictLookup (_parse_spec_file (_generate_spec_content [("a".toList, " x".toList)]))
        ("a".toList)
      = dictLookup [("a".toList, " x".toList)] ("a".toList) := by
  decide

/-- C1 (amended): `Splitter(Composer(M)) = M` as a mapping — equal key sets
and equal content per key — for every ProjectMapping `M` (distinct keys)
whose paths are nonempty, newline-free and whitespace-trimmed and whose
values are whitespace-trimmed, are not wrapped in a matching triple-quote
delimiter pair, and contain no line matching the separator pattern. -/
theorem c1_roundtrip (M : List (Str × Str)) (hnd : (M.map Prod.fst).Nodup)
    (hgood : ∀ e ∈ M, goodPath e.1 ∧ goodContent e.2) (k : Str) :
    dictLookup (_parse_spec_file (_generate_spec_content M)) k = dictLookup M k := by
  have hperm := List.perm_insertionSort pairLe M
  have hndS : ((List.insertionSort pairLe M).map Prod.fst).Nodup :=
    ((hperm.map Prod.fst).nodup_iff).mpr hnd
  rw [parse_generate M hgood]
  rw [foldl_dictInsert_fresh _ [] (by simp) hndS]
  rw [List.nil_append]
  exact dictLookup_perm hperm hndS k

theorem c1_roundtrip_witness :
    dictLookup
      (_parse_spec_file (_generate_spec_content
        [("b.txt".toList, "world".toList), ("a.txt".toList, "first line\nsecond".toList)]))
      ("a.txt".toList)
      = dictLookup
          [("b.txt".toList, "world".toList), ("a.txt".toList, "first line\nsecond".toList)]
          ("a.txt".toList) :=
  c1_roundtrip _ (by decide) (by decide) _

end Filify
